import Mathlib

/-!
# Verification of the excel2json core (`src/main.rs`)

A shallow embedding of the core logic of the `excel2json` converter:
visible-column detection, user column-selection parsing, header-name
normalization and row-to-record conversion, together with theorems checking
the natural-language specification against it.

Modelling conventions:
* Rust `String`/`&str` values are Lean `String`s; the transformation
  functions work on the underlying `List Char` (Rust iterates over `char`s,
  i.e. Unicode scalar values, exactly what Lean's `Char` is).
* `str::trim` trims the Unicode `White_Space` set, reproduced below.
* `str::to_lowercase` is modelled character-wise by `Char.toLower`
  (exact on the ASCII range, which is all the replacement rules touch).
* A `calamine` cell is opaque to the core except for its text rendering
  (`cell.to_string()`), so a `Cell` is modelled as that rendered text.
* Machine integers: `usize` parsing yields a `Nat` checked against
  `2 ^ 64 - 1` (PosOverflow makes `str::parse::<usize>` fail).
-/

namespace Excel2Json

/-- Rust `char::is_whitespace`: the Unicode `White_Space` property. -/
def isRustWhitespace (c : Char) : Bool :=
  c = ' ' || c = '\t' || c = '\n' || c.val = 0xB || c.val = 0xC || c = '\r' ||
  c.val = 0x85 || c.val = 0xA0 || c.val = 0x1680 ||
  (0x2000 ≤ c.val && c.val ≤ 0x200A) ||
  c.val = 0x2028 || c.val = 0x2029 || c.val = 0x202F || c.val = 0x205F ||
  c.val = 0x3000

/-- Rust `str::trim` on the character list: drop whitespace from both ends. -/
def trimChars (l : List Char) : List Char :=
  ((l.dropWhile isRustWhitespace).reverse.dropWhile isRustWhitespace).reverse

/-- Rust `str::trim` at the `String` level. -/
def rustTrim (s : String) : String :=
  ⟨trimChars s.data⟩

/-- One fuelled step of Rust `str::replace`: scan left to right, replacing each
leftmost non-overlapping occurrence of `p` by `r`.  The fuel (an upper bound on
the scanned length) keeps the recursion structural so that terms reduce. -/
def replaceFuel (p r : List Char) : Nat → List Char → List Char
  | 0, l => l
  | _ + 1, [] => []
  | fuel + 1, c :: rest =>
    if p.isPrefixOf (c :: rest) then
      r ++ replaceFuel p r fuel ((c :: rest).drop p.length)
    else
      c :: replaceFuel p r fuel rest

/-- Rust `str::replace (p, r)` on character lists. -/
def listReplace (p r l : List Char) : List Char :=
  replaceFuel p r l.length l

/-- The chain of substitutions applied by `normalize_column_name` to a header
that is not one of the six single-symbol special cases (`src/main.rs:68-79`),
starting from the lower-cased trimmed characters. -/
def replaceChain (t : List Char) : List Char :=
  let s0 := t.map Char.toLower
  let s1 := listReplace (" & ".data) ("_and_".data) s0
  let s2 := listReplace (['&']) ("_and_".data) s1
  let s3 := listReplace (['/']) (['_']) s2
  let s4 := listReplace (['@']) ("_at_".data) s3
  let s5 := listReplace (['#']) (['_']) s4
  let s6 := listReplace (['%']) ("_percent".data) s5
  let s7 := listReplace (['$']) ("_usd".data) s6
  let s8 := listReplace (['(']) ([]) s7
  let s9 := listReplace ([')']) ([]) s8
  listReplace ([' ']) (['_']) s9

/-- The final clean-up of `normalize_column_name` (`src/main.rs:84-88`):
split on `'_'`, drop empty segments, re-join with single underscores. -/
def collapseUnderscores (l : List Char) : List Char :=
  (['_']).intercalate ((l.splitOn '_').filter (fun seg => !seg.isEmpty))

/-- `normalize_column_name` (`src/main.rs:55-89`) on character lists: trim,
special-case the six single-symbol headers, otherwise lowercase and run the
replacement chain; finally collapse underscore runs. -/
def normalizeChars (l : List Char) : List Char :=
  let t := trimChars l
  let result :=
    if t = ['#'] then "number".data
    else if t = ['@'] then "at".data
    else if t = ['%'] then "percent".data
    else if t = ['$'] then "usd".data
    else if t = ['/'] then "slash".data
    else if t = ['&'] then "and".data
    else replaceChain t
  collapseUnderscores result

/-- `normalize_column_name` at the `String` level. -/
def normalize_column_name (name : String) : String :=
  ⟨normalizeChars name.data⟩

end Excel2Json

namespace Excel2Json

/-- A grid cell, modelled by its text rendering `cell.to_string()`
(the core never inspects anything else of a `calamine::Data` value). -/
abbrev Cell := String

/-- `get_visible_column_indices` (`src/main.rs:105-120`): the 0-based indices
of header cells whose trimmed rendering is non-empty, left to right. -/
def get_visible_column_indices (header_row : List Cell) : List Nat :=
  (header_row.enum).filterMap fun p =>
    if (trimChars p.2.data).isEmpty then none else some p.1

/-- Numeric value of a run of ASCII digits, most significant first
(the accumulator loop inside Rust's integer `FromStr`). -/
def digitsToNat (l : List Char) : Nat :=
  l.foldl (fun acc c => acc * 10 + (c.toNat - '0'.toNat)) 0

/-- Largest value of a 64-bit `usize`. -/
def usizeMax : Nat := 2 ^ 64 - 1

/-- Rust `str::parse::<usize>` on an already-trimmed token: an optional `'+'`
sign followed by one or more ASCII digits, value at most `usizeMax`;
anything else (including overflow) is a parse error. -/
def parseUsize (s : String) : Option Nat :=
  let l := if s.data.head? = some '+' then s.data.tail else s.data
  if l.isEmpty then none
  else if l.all Char.isDigit then
    if digitsToNat l ≤ usizeMax then some (digitsToNat l) else none
  else none

/-- The spec's error kinds for the column selector (§7). -/
inductive SelectorError where
  | invalidSelector : SelectorError
  | selectorOutOfRange : SelectorError
deriving DecidableEq

/-- Outcome of `parse_visible_column_numbers`: a selection, an error, or a
Rust panic (which the code must never reach). -/
inductive SelResult where
  | ok : List Nat → SelResult
  | err : SelectorError → SelResult
  | panicked : SelResult
deriving DecidableEq

/-- The per-token loop of `parse_visible_column_numbers`
(`src/main.rs:146-169`): trim, parse as `usize`, reject `0` and values above
the visible-column count, otherwise index into `visible_indices`; the
`Result` collect stops at the first error.  The out-of-bounds indexing arm is
represented by `SelResult.panicked`. -/
def parseTokens (visible_indices : List Nat) : List String → SelResult
  | [] => .ok []
  | t :: rest =>
    match parseUsize (rustTrim t) with
    | none => .err .invalidSelector
    | some n =>
      if n = 0 then .err .selectorOutOfRange
      else if visible_indices.length < n then .err .selectorOutOfRange
      else
        match visible_indices[n - 1]? with
        | none => .panicked
        | some idx =>
          match parseTokens visible_indices rest with
          | .ok l => .ok (idx :: l)
          | .err e => .err e
          | .panicked => .panicked

/-- Rust `str::split(',')` on character lists, as `List.splitOn`. -/
def splitCommas (s : String) : List String :=
  ((s.data).splitOn ',').map fun l => ⟨l⟩

/-- `parse_visible_column_numbers` (`src/main.rs:142-170`). -/
def parse_visible_column_numbers (columns_str : String)
    (visible_indices : List Nat) : SelResult :=
  parseTokens visible_indices (splitCommas columns_str)

/-- A token is accepted by the selector loop: it parses and is in range. -/
def tokenOk (visible_indices : List Nat) (t : String) : Bool :=
  match parseUsize (rustTrim t) with
  | none => false
  | some n => decide (1 ≤ n ∧ n ≤ visible_indices.length)

/-- A `serde_json::Value` as far as this program can produce one at a record
field: the converter only ever emits strings and nulls, but the JSON value
space also has booleans and numbers, kept here so that "values are always
strings" is a fact and not a typing triviality. -/
inductive JValue where
  | null : JValue
  | bool : Bool → JValue
  | num : Int → JValue
  | str : String → JValue
deriving DecidableEq

/-- `convert_cell_to_json` (`src/main.rs:233-237`): every cell is rendered
to its text form and wrapped as a JSON string. -/
def convert_cell_to_json (cell : Cell) : JValue :=
  JValue.str cell

/-- A JSON object (a record), as an insertion-ordered key/value list. -/
abbrev Record := List (String × JValue)

/-- Modelled from the spec: the insert operation of the `serde_json` object
map that `convert_rows_to_json` collects into.  The crate's map flavour is
fixed by `Cargo.toml`, which is not under `src/`; spec §6 requires
"keys = NormalizedHeaders in selection order" and §4.4 "ordinary map insert
semantics", i.e. an insertion-ordered map: inserting an existing key updates
its value in place, a new key is appended at the end. -/
def mapInsert (m : Record) (k : String) (v : JValue) : Record :=
  if m.any (fun p => p.1 == k) then
    m.map (fun p => if p.1 == k then (k, v) else p)
  else m ++ [(k, v)]

/-- The value stored for one selected column of one row
(`src/main.rs:267-271`): the cell's rendering if the row reaches that grid
index, JSON `null` otherwise. -/
def cellValueAt (row : List Cell) (col_idx : Nat) : JValue :=
  match row[col_idx]? with
  | some cell => convert_cell_to_json cell
  | none => JValue.null

/-- The row loop body of `convert_rows_to_json` (`src/main.rs:261-276`):
pair each selected column with its header (the Rust code indexes
`headers[header_idx]` directly; callers always pass `headers` of the same
length as `column_indices`) and collect the pairs into the object map. -/
def buildRecord (headers : List String) (column_indices : List Nat)
    (row : List Cell) : Record :=
  (column_indices.enum).foldl
    (fun m p => mapInsert m (headers.getD p.1 "") (cellValueAt row p.2)) []

/-- `convert_rows_to_json` (`src/main.rs:256-279`). -/
def convert_rows_to_json (rows : List (List Cell)) (headers : List String)
    (column_indices : List Nat) : List Record :=
  rows.map (buildRecord headers column_indices)

/-- `extract_headers` (`src/main.rs:207-220`): normalize the header cell at
each selected index, with a fallback name for out-of-range indices. -/
def extract_headers (header_row : List Cell) (column_indices : List Nat) :
    List String :=
  column_indices.map fun i =>
    match header_row[i]? with
    | some cell => normalize_column_name cell
    | none => "column_" ++ toString (i + 1)

/-- Errors of the core pipeline (`main`, `src/main.rs:324-357`) after the
grid has been read: a missing header row, a selector error, or a panic. -/
inductive ConvError where
  | emptySheet : ConvError
  | selector : SelectorError → ConvError
  | panicked : ConvError
deriving DecidableEq

/-- A `Result` of the core pipeline: the converted records or an error. -/
inductive ConvResult where
  | ok : List Record → ConvResult
  | error : ConvError → ConvResult
deriving DecidableEq

/-- The core of `main` (`src/main.rs:329-354`): take the first row as
headers, detect visible columns, resolve the column selection (user string
or default), extract headers and convert every remaining row. -/
def convertSheet (grid : List (List Cell)) (columns : Option String) :
    ConvResult :=
  match grid with
  | [] => .error .emptySheet
  | header_row :: data_rows =>
    let visible_indices := get_visible_column_indices header_row
    match columns with
    | none =>
      .ok (convert_rows_to_json data_rows
        (extract_headers header_row visible_indices) visible_indices)
    | some cols_str =>
      match parse_visible_column_numbers cols_str visible_indices with
      | .ok column_indices =>
        .ok (convert_rows_to_json data_rows
          (extract_headers header_row column_indices) column_indices)
      | .err e => .error (.selector e)
      | .panicked => .error .panicked

/-- The six single-character substitutions of spec §4.3 step 2. -/
def specSymbolTable : List (Char × String) :=
  [('#', "number"), ('@', "at"), ('%', "percent"),
   ('$', "usd"), ('/', "slash"), ('&', "and")]

/-- The ordered substring replacements of spec §4.3 step 3. -/
def specReplacementList : List (String × String) :=
  [(" & ", "_and_"), ("&", "_and_"), ("/", "_"), ("@", "_at_"), ("#", "_"),
   ("%", "_percent"), ("$", "_usd"), ("(", ""), (")", ""), (" ", "_")]

/-- The spec's reference normalization algorithm (§4.3), written from its
words: trim; if the trimmed string is exactly one of the six
single-character symbols substitute the canonical word directly, bypassing
all further rules; otherwise lowercase and apply the replacement list in
order; finally split on underscore, discard empty segments and rejoin with
a single underscore. -/
def specNormalize (s : String) : String :=
  let t := trimChars s.data
  match (specSymbolTable.filter fun p => decide (t = [p.1])).head? with
  | some p => p.2
  | none =>
    let replaced := specReplacementList.foldl
      (fun acc pr => listReplace pr.1.data pr.2.data acc) (t.map Char.toLower)
    ⟨(['_']).intercalate
      ((replaced.splitOn '_').filter fun seg => !seg.isEmpty)⟩

/-- Inserting a key into the ordered key list of a record: no change if the
key is already present, otherwise appended at the end. -/
def keyInsert (ks : List String) (k : String) : List String :=
  if k ∈ ks then ks else ks ++ [k]

/-- The (header, value) pairs a data row is zipped into, in selection order
(spec §4.4), before they are collected into the object map. -/
def recordPairs (headers : List String) (column_indices : List Nat)
    (row : List Cell) : List (String × JValue) :=
  (column_indices.enum).map fun p => (headers.getD p.1 "", cellValueAt row p.2)

end Excel2Json

namespace Excel2Json

/-! ## Helper lemmas: visible-column detection -/

theorem filterMap_if_eq_filter_map {α β : Type} (f : α → Bool) (g : α → β)
    (l : List α) :
    (l.filterMap fun a => if f a then none else some (g a)) =
      (l.filter fun a => !f a).map g := by
  induction l with
  | nil => rfl
  | cons hd tl ih =>
    cases h : f hd <;> simp [List.filterMap_cons, List.filter_cons, h, ih]

theorem filterMap_visible_eq_filter_map (l : List (Nat × Cell)) :
    (l.filterMap fun p =>
        if (trimChars p.2.data).isEmpty then none else some p.1) =
      (l.filter fun p => !(trimChars p.2.data).isEmpty).map Prod.fst :=
  filterMap_if_eq_filter_map (fun p => (trimChars p.2.data).isEmpty)
    (fun p => p.1) l

theorem get_visible_column_indices_pairwise (row : List Cell) :
    List.Pairwise (· < ·) (get_visible_column_indices row) := by
  have hsub :
      List.Sublist (get_visible_column_indices row) (row.enum.map Prod.fst) := by
    rw [get_visible_column_indices, filterMap_visible_eq_filter_map]
    exact (List.filter_sublist _).map Prod.fst
  rw [List.enum_map_fst] at hsub
  exact (List.pairwise_lt_range _).sublist hsub

theorem mem_get_visible_column_indices (row : List Cell) (i : Nat) :
    i ∈ get_visible_column_indices row ↔
      ∃ cell, row[i]? = some cell ∧ trimChars cell.data ≠ [] := by
  rw [get_visible_column_indices]
  simp only [List.mem_filterMap]
  constructor
  · rintro ⟨⟨j, c⟩, hmem, hf⟩
    by_cases h : (trimChars c.data).isEmpty
    · rw [if_pos h] at hf; cases hf
    · rw [if_neg h] at hf
      obtain rfl := Option.some.inj hf
      exact ⟨c, List.mem_enum_iff_getElem?.mp hmem,
        by simpa [List.isEmpty_iff] using h⟩
  · rintro ⟨cell, hg, hne⟩
    exact ⟨(i, cell), List.mem_enum_iff_getElem?.mpr hg,
      by simp [List.isEmpty_iff, hne]⟩

/-- C7: the visible-column detector returns exactly the 0-based indices of
header cells whose trimmed text rendering is non-empty, in strictly
increasing (left-to-right) order; it has no failure outcome, an all-blank
header row yields `[]`, and the spec's §8 example holds. -/
theorem visible_columns_exactly_nonblank_indices :
    (∀ row : List Cell, List.Pairwise (· < ·) (get_visible_column_indices row))
    ∧ (∀ (row : List Cell) (i : Nat),
        i ∈ get_visible_column_indices row ↔
          ∃ cell, row[i]? = some cell ∧ trimChars cell.data ≠ [])
    ∧ (∀ row : List Cell, (∀ cell ∈ row, trimChars cell.data = []) →
        get_visible_column_indices row = [])
    ∧ get_visible_column_indices ["Name", "Age", "", "Email", "", "Phone"] =
        [0, 1, 3, 5] := by
  refine ⟨get_visible_column_indices_pairwise,
    mem_get_visible_column_indices, ?_, by decide⟩
  intro row hall
  by_contra hne
  obtain ⟨i, hi⟩ := List.exists_mem_of_ne_nil _ hne
  obtain ⟨cell, hg, hcell⟩ := (mem_get_visible_column_indices row i).mp hi
  exact hcell (hall cell (List.getElem?_mem hg))

theorem visible_columns_exactly_nonblank_indices_witness :
    get_visible_column_indices ["", "  ", "\t"] = [] :=
  visible_columns_exactly_nonblank_indices.2.2.1 ["", "  ", "\t"]
    (by decide)

/-! ## Helper lemmas: the column selector -/

theorem parseTokens_ne_panicked (vis : List Nat) (ts : List String) :
    parseTokens vis ts ≠ SelResult.panicked := by
  induction ts with
  | nil => simp [parseTokens]
  | cons t rest ih =>
    simp only [parseTokens]
    cases hp : parseUsize (rustTrim t) with
    | none => simp
    | some n =>
      by_cases h0 : n = 0
      · simp [h0]
      · by_cases hhi : vis.length < n
        · simp [h0, hhi]
        · have hlt : n - 1 < vis.length := by omega
          cases hg : vis[n - 1]? with
          | none =>
            have := List.getElem?_eq_none_iff.mp hg
            omega
          | some idx =>
            simp only [h0, if_false, hhi, hg]
            cases hr : parseTokens vis rest <;> simp_all

/-- C10: the column selector is total and panic-free: for every selector
string and every visible-index list the indexing `visible_indices[n - 1]`
performed on the success path is in bounds (the `panicked` outcome is never
produced), and the function always returns either a selection or an error. -/
theorem selector_total_and_panic_free :
    ∀ (s : String) (vis : List Nat),
      parse_visible_column_numbers s vis ≠ SelResult.panicked
      ∧ ((∃ l, parse_visible_column_numbers s vis = SelResult.ok l) ∨
         (∃ e, parse_visible_column_numbers s vis = SelResult.err e)) := by
  intro s vis
  refine ⟨parseTokens_ne_panicked vis (splitCommas s), ?_⟩
  cases h : parse_visible_column_numbers s vis with
  | ok l => exact Or.inl ⟨l, rfl⟩
  | err e => exact Or.inr ⟨e, rfl⟩
  | panicked => exact absurd h (parseTokens_ne_panicked vis (splitCommas s))

theorem parseTokens_err_characterization (vis : List Nat) (ts : List String) :
    (parseTokens vis ts = SelResult.err SelectorError.invalidSelector ↔
      ∃ t, ts.find? (fun u => !tokenOk vis u) = some t ∧
        parseUsize (rustTrim t) = none)
    ∧ (parseTokens vis ts = SelResult.err SelectorError.selectorOutOfRange ↔
      ∃ t n, ts.find? (fun u => !tokenOk vis u) = some t ∧
        parseUsize (rustTrim t) = some n ∧ (n = 0 ∨ vis.length < n)) := by
  induction ts with
  | nil => simp [parseTokens]
  | cons t rest ih =>
    cases hp : parseUsize (rustTrim t) with
    | none =>
      have hbad : (fun u => !tokenOk vis u) t = true := by simp [tokenOk, hp]
      rw [List.find?_cons_of_pos rest hbad]
      simp [parseTokens, hp]
    | some n =>
      by_cases h0 : n = 0
      · have hbad : (fun u => !tokenOk vis u) t = true := by
          simp [tokenOk, hp, h0]
        rw [List.find?_cons_of_pos rest hbad]
        subst h0
        simp [parseTokens, hp]
      · by_cases hhi : vis.length < n
        · have hbad : (fun u => !tokenOk vis u) t = true := by
            simp only [tokenOk, hp, Bool.not_eq_true', decide_eq_false_iff_not]
            omega
          rw [List.find?_cons_of_pos rest hbad]
          constructor
          · simp only [parseTokens, hp, h0, if_false, hhi, if_true]
            constructor
            · intro h; cases h
            · rintro ⟨t', ht', hpt'⟩
              obtain rfl := Option.some.inj ht'
              rw [hp] at hpt'; cases hpt'
          · simp only [parseTokens, hp, h0, if_false, hhi, if_true]
            constructor
            · intro _; exact ⟨t, n, rfl, hp, Or.inr hhi⟩
            · intro _; trivial
        · have hok : ¬(fun u => !tokenOk vis u) t = true := by
            simp only [tokenOk, hp, Bool.not_eq_true', decide_eq_false_iff_not]
            omega
          rw [List.find?_cons_of_neg rest hok]
          have hlt : n - 1 < vis.length := by omega
          cases hg : vis[n - 1]? with
          | none =>
            have := List.getElem?_eq_none_iff.mp hg
            omega
          | some idx =>
            have hstep : ∀ c : SelectorError,
                parseTokens vis (t :: rest) = SelResult.err c ↔
                  parseTokens vis rest = SelResult.err c := by
              intro c
              simp only [parseTokens, hp, h0, if_false, hhi, hg]
              cases parseTokens vis rest <;> simp
            exact ⟨(hstep _).trans ih.1, (hstep _).trans ih.2⟩

/-- C2: the selector fails with `InvalidSelector` exactly when the first
rejected comma-separated token (after trimming) is not parseable as a
non-negative integer, fails with `SelectorOutOfRange` exactly when the
first rejected token parses to `0` or to a value exceeding the number of
visible columns, and on any failure the result is an error carrying no
partial selection. -/
theorem selector_error_characterization :
    ∀ (s : String) (vis : List Nat),
      (parse_visible_column_numbers s vis =
          SelResult.err SelectorError.invalidSelector ↔
        ∃ t, (splitCommas s).find? (fun u => !tokenOk vis u) = some t ∧
          parseUsize (rustTrim t) = none)
      ∧ (parse_visible_column_numbers s vis =
          SelResult.err SelectorError.selectorOutOfRange ↔
        ∃ t n, (splitCommas s).find? (fun u => !tokenOk vis u) = some t ∧
          parseUsize (rustTrim t) = some n ∧ (n = 0 ∨ vis.length < n))
      ∧ (∀ e l, parse_visible_column_numbers s vis = SelResult.err e →
          parse_visible_column_numbers s vis ≠ SelResult.ok l) := by
  intro s vis
  refine ⟨(parseTokens_err_characterization vis (splitCommas s)).1,
    (parseTokens_err_characterization vis (splitCommas s)).2, ?_⟩
  intro e l he hok
  rw [he] at hok
  cases hok

theorem selector_error_characterization_witness :
    ∃ t, (splitCommas "abc").find? (fun u => !tokenOk [0, 2] u) = some t ∧
      parseUsize (rustTrim t) = none :=
  (selector_error_characterization "abc" [0, 2]).1.mp (by decide)

theorem parseTokens_ok_of_valid (vis : List Nat) :
    ∀ ts : List String, (∀ t ∈ ts, tokenOk vis t = true) →
      ∃ l, parseTokens vis ts = SelResult.ok l ∧ l.length = ts.length ∧
        ∀ (i : Nat) (t : String), ts[i]? = some t →
          l[i]? = (parseUsize (rustTrim t)).bind fun n => vis[n - 1]? := by
  intro ts
  induction ts with
  | nil => exact fun _ => ⟨[], rfl, rfl, by simp⟩
  | cons t rest ih =>
    intro hall
    have ht := hall t (List.mem_cons_self t rest)
    rw [tokenOk] at ht
    cases hp : parseUsize (rustTrim t) with
    | none => rw [hp] at ht; cases ht
    | some n =>
      rw [hp] at ht
      have hn := of_decide_eq_true ht
      have h0 : ¬n = 0 := by omega
      have hhi : ¬vis.length < n := by omega
      have hlt : n - 1 < vis.length := by omega
      cases hg : vis[n - 1]? with
      | none =>
        have := List.getElem?_eq_none_iff.mp hg
        omega
      | some idx =>
        obtain ⟨l, hl, hlen, hidx⟩ :=
          ih fun u hu => hall u (List.mem_cons_of_mem t hu)
        refine ⟨idx :: l, ?_, by simp [hlen], ?_⟩
        · simp only [parseTokens, hp, h0, if_false, hhi, hg, hl]
        · intro i t' hi
          cases i with
          | zero =>
            rw [List.getElem?_cons_zero] at hi
            obtain rfl := Option.some.inj hi
            simp [hp, hg]
          | succ j =>
            simp only [List.getElem?_cons_succ] at hi ⊢
            exact hidx j t' hi

/-- C5: when every comma-separated token of the selector string parses to an
integer `n` with `1 ≤ n ≤` (number of visible columns), the selector
succeeds with a list of the same length as the token list whose entry for
each token is `visible_indices[n - 1]`, in token order; in particular
visible indices `[0, 2, 5, 7]` with selector `"1,3"` yield `[0, 5]`. -/
theorem selector_success_maps_ordinals :
    ∀ (s : String) (vis : List Nat),
      (∀ t ∈ splitCommas s, tokenOk vis t = true) →
      (∃ l, parse_visible_column_numbers s vis = SelResult.ok l ∧
          l.length = (splitCommas s).length ∧
          ∀ (i : Nat) (t : String), (splitCommas s)[i]? = some t →
            l[i]? = (parseUsize (rustTrim t)).bind fun n => vis[n - 1]?)
      ∧ parse_visible_column_numbers "1,3" [0, 2, 5, 7] =
          SelResult.ok [0, 5] := by
  intro s vis hall
  exact ⟨parseTokens_ok_of_valid vis (splitCommas s) hall, by decide⟩

theorem selector_success_maps_ordinals_witness :
    parse_visible_column_numbers "1,3" [0, 2, 5, 7] = SelResult.ok [0, 5] :=
  (selector_success_maps_ordinals "1,3" [0, 2, 5, 7] (by decide)).2

/-! ## Helper lemmas: the record map -/

theorem lookup_map_replace (k : String) (v : JValue) :
    ∀ m : Record, (m.any fun p => p.1 == k) = true →
      List.lookup k (m.map fun p => if p.1 == k then (k, v) else p) = some v := by
  intro m
  induction m with
  | nil => intro h; cases h
  | cons hd tl ih =>
    obtain ⟨a, b⟩ := hd
    intro hany
    by_cases h : a = k
    · simp [List.lookup_cons, h]
    · have h2 : (k == a) = false := beq_eq_false_iff_ne.mpr (Ne.symm h)
      have htl : (tl.any fun p => p.1 == k) = true := by
        simpa [List.any_cons, h] using hany
      simpa [List.lookup_cons, h, h2] using ih htl

theorem lookup_map_replace_ne (k k' : String) (v : JValue) (hne : k' ≠ k) :
    ∀ m : Record,
      List.lookup k' (m.map fun p => if p.1 == k then (k, v) else p) =
        List.lookup k' m := by
  intro m
  induction m with
  | nil => rfl
  | cons hd tl ih =>
    obtain ⟨a, b⟩ := hd
    by_cases h : a = k
    · have h1 : (k' == k) = false := beq_eq_false_iff_ne.mpr hne
      have h2 : (k' == a) = false := h ▸ h1
      simpa [List.lookup_cons, h, h1, h2] using ih
    · cases h2 : (k' == a)
      · simpa [List.lookup_cons, h, h2] using ih
      · simp [List.lookup_cons, h, h2]

theorem lookup_append_singleton (k : String) (v : JValue) :
    ∀ m : Record, (m.any fun p => p.1 == k) = false →
      List.lookup k (m ++ [(k, v)]) = some v := by
  intro m
  induction m with
  | nil => intro _; simp [List.lookup_cons]
  | cons hd tl ih =>
    obtain ⟨a, b⟩ := hd
    intro hany
    simp only [List.any_cons, Bool.or_eq_false_iff] at hany
    have h2 : (k == a) = false := by
      have h1 := hany.1
      rw [beq_eq_false_iff_ne] at h1 ⊢
      exact fun e => h1 e.symm
    simp [List.lookup_cons, h2, ih hany.2]

theorem lookup_append_singleton_ne (k k' : String) (v : JValue)
    (hne : k' ≠ k) :
    ∀ m : Record, List.lookup k' (m ++ [(k, v)]) = List.lookup k' m := by
  intro m
  induction m with
  | nil =>
    simp [List.lookup_cons, beq_eq_false_iff_ne.mpr hne]
  | cons hd tl ih =>
    obtain ⟨a, b⟩ := hd
    cases h2 : (k' == a) <;> simp [List.lookup_cons, h2, ih]

theorem lookup_mapInsert_self (m : Record) (k : String) (v : JValue) :
    List.lookup k (mapInsert m k v) = some v := by
  rw [mapInsert]
  by_cases h : (m.any fun p => p.1 == k) = true
  · rw [if_pos h]
    exact lookup_map_replace k v m h
  · rw [if_neg h]
    exact lookup_append_singleton k v m (Bool.not_eq_true _ ▸ Bool.of_not_eq_true h)

theorem lookup_mapInsert_ne (m : Record) (k k' : String) (v : JValue)
    (hne : k' ≠ k) :
    List.lookup k' (mapInsert m k v) = List.lookup k' m := by
  rw [mapInsert]
  by_cases h : (m.any fun p => p.1 == k) = true
  · rw [if_pos h]
    exact lookup_map_replace_ne k k' v hne m
  · rw [if_neg h]
    exact lookup_append_singleton_ne k k' v hne m

theorem keys_mapInsert (m : Record) (k : String) (v : JValue) :
    (mapInsert m k v).map Prod.fst = keyInsert (m.map Prod.fst) k := by
  rw [mapInsert, keyInsert]
  by_cases h : (m.any fun p => p.1 == k) = true
  · rw [if_pos h, if_pos]
    · rw [List.map_map]
      refine List.map_congr_left fun p _ => ?_
      by_cases hp : p.1 = k
      · simp [hp]
      · simp [hp]
    · rw [List.any_eq_true] at h
      obtain ⟨p, hp, hk⟩ := h
      exact List.mem_map.mpr ⟨p, hp, eq_of_beq hk⟩
  · rw [if_neg h, if_neg]
    · simp
    · intro hmem
      obtain ⟨p, hp, he⟩ := List.mem_map.mp hmem
      exact h (List.any_eq_true.mpr ⟨p, hp, beq_iff_eq.mpr he⟩)

theorem buildRecord_eq_foldl_pairs (headers : List String) (cols : List Nat)
    (row : List Cell) :
    buildRecord headers cols row =
      (recordPairs headers cols row).foldl (fun m q => mapInsert m q.1 q.2)
        [] := by
  rw [recordPairs, List.foldl_map]
  rfl

theorem lookup_foldl_of_not_mem (k : String) :
    ∀ (pairs : List (String × JValue)) (m : Record),
      (∀ p ∈ pairs, p.1 ≠ k) →
      List.lookup k (pairs.foldl (fun m q => mapInsert m q.1 q.2) m) =
        List.lookup k m := by
  intro pairs
  induction pairs with
  | nil => intro m _; rfl
  | cons q qs ih =>
    intro m hall
    rw [List.foldl_cons,
      ih _ fun p hp => hall p (List.mem_cons_of_mem q hp)]
    exact lookup_mapInsert_ne m q.1 k q.2
      fun e => hall q (List.mem_cons_self q qs) e.symm

theorem lookup_foldl_last_occurrence (k : String) (v : JValue)
    (pre post : List (String × JValue)) (hpost : ∀ p ∈ post, p.1 ≠ k) :
    List.lookup k
        ((pre ++ (k, v) :: post).foldl (fun m q => mapInsert m q.1 q.2) []) =
      some v := by
  rw [List.foldl_append, List.foldl_cons, lookup_foldl_of_not_mem k post _ hpost]
  exact lookup_mapInsert_self _ k v

theorem keys_foldl_mapInsert :
    ∀ (pairs : List (String × JValue)) (m : Record),
      ((pairs.foldl (fun m q => mapInsert m q.1 q.2) m).map Prod.fst) =
        (pairs.map Prod.fst).foldl keyInsert (m.map Prod.fst) := by
  intro pairs
  induction pairs with
  | nil => intro m; rfl
  | cons q qs ih =>
    intro m
    rw [List.foldl_cons, List.map_cons, List.foldl_cons, ih, keys_mapInsert]

theorem nodup_foldl_keyInsert :
    ∀ (ks : List String) (acc : List String), acc.Nodup →
      (ks.foldl keyInsert acc).Nodup := by
  intro ks
  induction ks with
  | nil => intro acc h; exact h
  | cons k ks ih =>
    intro acc h
    rw [List.foldl_cons]
    refine ih _ ?_
    rw [keyInsert]
    by_cases hk : k ∈ acc
    · rwa [if_pos hk]
    · rw [if_neg hk]
      simp [List.nodup_append, h, hk]

theorem nodup_keys_buildRecord (headers : List String) (cols : List Nat)
    (row : List Cell) :
    ((buildRecord headers cols row).map Prod.fst).Nodup := by
  rw [buildRecord_eq_foldl_pairs, keys_foldl_mapInsert]
  exact nodup_foldl_keyInsert _ [] List.nodup_nil

theorem recordPairs_length (headers : List String) (cols : List Nat)
    (row : List Cell) :
    (recordPairs headers cols row).length = cols.length := by
  simp [recordPairs]

theorem recordPairs_getElem? (headers : List String) (cols : List Nat)
    (row : List Cell) (i : Nat) (hi : i < cols.length) :
    (recordPairs headers cols row)[i]? =
      some (headers.getD i "", cellValueAt row (cols.getD i 0)) := by
  have h1 : i < (cols.enum).length := by simpa using hi
  rw [recordPairs, List.getElem?_map, List.getElem?_eq_getElem h1,
    List.getElem_enum]
  simp [List.getD_eq_getElem?_getD, List.getElem?_eq_getElem hi]

theorem eq_take_cons_drop_of_getElem? {α : Type} (l : List α) (i : Nat)
    (a : α) (h : l[i]? = some a) : l = l.take i ++ a :: l.drop (i + 1) := by
  obtain ⟨hlt, rfl⟩ := List.getElem?_eq_some_iff.mp h
  conv_lhs => rw [← List.take_append_drop i l]
  rw [List.drop_eq_getElem_cons hlt]

theorem lookup_buildRecord_last (headers : List String) (cols : List Nat)
    (row : List Cell) (i : Nat) (hi : i < cols.length)
    (hlast : ∀ j, i < j → j < cols.length →
      headers.getD j "" ≠ headers.getD i "") :
    List.lookup (headers.getD i "") (buildRecord headers cols row) =
      some (cellValueAt row (cols.getD i 0)) := by
  rw [buildRecord_eq_foldl_pairs]
  have hlen := recordPairs_length headers cols row
  have hdecomp := eq_take_cons_drop_of_getElem? (recordPairs headers cols row)
    i _ (recordPairs_getElem? headers cols row i hi)
  rw [hdecomp]
  refine lookup_foldl_last_occurrence _ _ _ _ ?_
  intro p hp
  obtain ⟨j, hj, hpj⟩ := List.mem_iff_getElem.mp hp
  have hj' : i + 1 + j < cols.length := by
    have := hj
    rw [List.length_drop] at this
    omega
  have hj2 : i + 1 + j < (recordPairs headers cols row).length := by omega
  have hpe : p = (headers.getD (i + 1 + j) "",
      cellValueAt row (cols.getD (i + 1 + j) 0)) := by
    have h3 := recordPairs_getElem? headers cols row (i + 1 + j) hj'
    rw [List.getElem?_eq_getElem hj2] at h3
    rw [← hpj, List.getElem_drop]
    exact Option.some.inj h3
  rw [hpe]
  exact hlast (i + 1 + j) (by omega) hj'

/-- C3: every emitted record is exactly the insertion-ordered map obtained
by inserting the pairs (NormalizedHeaders[i], value at ColumnSelection[i])
in selection order: keys appear in (deduplicated first-occurrence)
selection order, a repeated key keeps a single entry whose value comes from
its last occurrence, and selector `"1,1"` against visible indices `[0, 2]`
yields selection `[0, 0]` and a one-key record. -/
theorem record_map_insert_semantics :
    (∀ (headers : List String) (cols : List Nat) (row : List Cell),
        buildRecord headers cols row =
          (recordPairs headers cols row).foldl
            (fun m q => mapInsert m q.1 q.2) [])
    ∧ (∀ (headers : List String) (cols : List Nat) (row : List Cell),
        (buildRecord headers cols row).map Prod.fst =
          ((recordPairs headers cols row).map Prod.fst).foldl keyInsert [])
    ∧ (∀ (headers : List String) (cols : List Nat) (row : List Cell),
        ((buildRecord headers cols row).map Prod.fst).Nodup)
    ∧ (∀ (headers : List String) (cols : List Nat) (row : List Cell)
        (i : Nat), i < cols.length →
        (∀ j, i < j → j < cols.length →
          headers.getD j "" ≠ headers.getD i "") →
        List.lookup (headers.getD i "") (buildRecord headers cols row) =
          some (cellValueAt row (cols.getD i 0)))
    ∧ parse_visible_column_numbers "1,1" [0, 2] = SelResult.ok [0, 0]
    ∧ convert_rows_to_json [["John", "x", "25"]]
        (extract_headers ["Name", "", "Age"] [0, 0]) [0, 0] =
        [[("name", JValue.str "John")]] := by
  refine ⟨?_, ?_, ?_, ?_, by decide, by decide⟩
  · exact buildRecord_eq_foldl_pairs
  · intro headers cols row
    rw [buildRecord_eq_foldl_pairs, keys_foldl_mapInsert]
    rfl
  · exact nodup_keys_buildRecord
  · exact lookup_buildRecord_last

theorem record_map_insert_semantics_witness :
    List.lookup "b" (buildRecord ["a", "b"] [2, 0] ["x", "y", "z"]) =
      some (cellValueAt ["x", "y", "z"] ([2, 0].getD 1 0)) := by
  have h := record_map_insert_semantics.2.2.2.1 ["a", "b"] [2, 0]
    ["x", "y", "z"] 1 (by decide)
    (fun j h1 h2 => absurd (by simpa using h2 : j < 2) (by omega))
  simpa using h

/-- C4: for each position `i` of the column selection, the value paired with
`NormalizedHeaders[i]` in the record is the text rendering of the cell at
grid index `ColumnSelection[i]` when the row contains that index, and the
null marker — not an error and not the empty string — when the row is
shorter. -/
theorem record_value_per_position :
    (∀ (headers : List String) (cols : List Nat) (row : List Cell) (i : Nat),
        headers.length = cols.length → headers.Nodup → i < cols.length →
        List.lookup (headers.getD i "") (buildRecord headers cols row) =
          some (cellValueAt row (cols.getD i 0)))
    ∧ (∀ (row : List Cell) (c : Nat), c < row.length →
        cellValueAt row c = JValue.str (row.getD c ""))
    ∧ (∀ (row : List Cell) (c : Nat), row.length ≤ c →
        cellValueAt row c = JValue.null)
    ∧ JValue.null ≠ JValue.str "" := by
  refine ⟨?_, ?_, ?_, by decide⟩
  · intro headers cols row i hlen hnod hi
    refine lookup_buildRecord_last headers cols row i hi ?_
    intro j hij hj he
    have hjh : j < headers.length := by omega
    have hih : i < headers.length := by omega
    rw [List.getD_eq_getElem?_getD, List.getElem?_eq_getElem hjh,
      List.getD_eq_getElem?_getD, List.getElem?_eq_getElem hih] at he
    simp only [Option.getD_some] at he
    have := (hnod.getElem_inj_iff).mp he
    omega
  · intro row c h
    rw [cellValueAt, List.getElem?_eq_getElem h, List.getD_eq_getElem?_getD,
      List.getElem?_eq_getElem h]
    rfl
  · intro row c h
    rw [cellValueAt, List.getElem?_eq_none h]

theorem record_value_per_position_witness :
    List.lookup "b" (buildRecord ["a", "b"] [0, 9] ["x", "y"]) =
      some (cellValueAt ["x", "y"] ([0, 9].getD 1 0)) :=
  record_value_per_position.1 ["a", "b"] [0, 9] ["x", "y"] 1
    (by decide) (by decide) (by decide)

theorem mem_mapInsert (m : Record) (k : String) (v : JValue)
    (p : String × JValue) (hp : p ∈ mapInsert m k v) : p = (k, v) ∨ p ∈ m := by
  rw [mapInsert] at hp
  by_cases h : (m.any fun q => q.1 == k) = true
  · rw [if_pos h] at hp
    obtain ⟨q, hq, he⟩ := List.mem_map.mp hp
    by_cases hqk : q.1 = k
    · left; rw [← he]; simp [hqk]
    · right; rw [← he]; simpa [hqk] using hq
  · rw [if_neg h] at hp
    rcases List.mem_append.mp hp with h1 | h1
    · right; exact h1
    · left; simpa using h1

theorem values_foldl_strOrNull :
    ∀ (pairs : List (String × JValue)) (m : Record),
      (∀ p ∈ m, p.2 = JValue.null ∨ ∃ s, p.2 = JValue.str s) →
      (∀ p ∈ pairs, p.2 = JValue.null ∨ ∃ s, p.2 = JValue.str s) →
      ∀ p ∈ pairs.foldl (fun m q => mapInsert m q.1 q.2) m,
        p.2 = JValue.null ∨ ∃ s, p.2 = JValue.str s := by
  intro pairs
  induction pairs with
  | nil => intro m hm _ p hp; exact hm p hp
  | cons q qs ih =>
    intro m hm hall p hp
    rw [List.foldl_cons] at hp
    refine ih _ ?_ (fun r hr => hall r (List.mem_cons_of_mem q hr)) p hp
    intro r hr
    rcases mem_mapInsert m q.1 q.2 r hr with he | hin
    · rw [he]; exact hall q (List.mem_cons_self q qs)
    · exact hm r hin

theorem cellValueAt_strOrNull (row : List Cell) (c : Nat) :
    cellValueAt row c = JValue.null ∨ ∃ s, cellValueAt row c = JValue.str s := by
  cases h : row[c]? with
  | none => left; simp [cellValueAt, h]
  | some cell =>
    right
    exact ⟨cell, by simp [cellValueAt, convert_cell_to_json, h]⟩

/-- C9: record values for cells present in the row are always JSON strings
(the cell's text rendering) and never any other JSON type; a value is null
iff the row is shorter than the selected grid index, and a present-but-blank
cell yields the empty string rather than null. -/
theorem record_values_strings_or_null :
    (∀ (headers : List String) (cols : List Nat) (row : List Cell)
        (p : String × JValue), p ∈ buildRecord headers cols row →
        p.2 = JValue.null ∨ ∃ s, p.2 = JValue.str s)
    ∧ (∀ (row : List Cell) (c : Nat),
        cellValueAt row c = JValue.null ↔ row.length ≤ c)
    ∧ (∀ (row : List Cell) (c : Nat) (cell : Cell), row[c]? = some cell →
        cellValueAt row c = JValue.str cell)
    ∧ cellValueAt [""] 0 = JValue.str "" := by
  refine ⟨?_, ?_, ?_, by decide⟩
  · intro headers cols row p hp
    rw [buildRecord_eq_foldl_pairs] at hp
    refine values_foldl_strOrNull _ [] (by simp) ?_ p hp
    intro q hq
    rw [recordPairs] at hq
    obtain ⟨e, _, hqe⟩ := List.mem_map.mp hq
    rw [← hqe]
    exact cellValueAt_strOrNull row e.2
  · intro row c
    constructor
    · intro h
      by_contra hlt
      push_neg at hlt
      rw [cellValueAt, List.getElem?_eq_getElem hlt] at h
      simp [convert_cell_to_json] at h
    · intro h
      rw [cellValueAt, List.getElem?_eq_none h]
  · intro row c cell h
    rw [cellValueAt, h]
    rfl

theorem record_values_strings_or_null_witness :
    ("a", JValue.str "x").2 = JValue.null ∨
      ∃ s, ("a", JValue.str "x").2 = JValue.str s :=
  record_values_strings_or_null.1 ["a"] [0] ["x"] ("a", JValue.str "x")
    (by decide)

theorem convertSheet_ok_length (grid : List (List Cell))
    (columns : Option String) (out : List Record)
    (h : convertSheet grid columns = ConvResult.ok out) :
    out.length = grid.length - 1 := by
  cases grid with
  | nil => cases h
  | cons header rows =>
    cases columns with
    | none =>
      simp only [convertSheet] at h
      obtain rfl := ConvResult.ok.inj h
      simp [convert_rows_to_json]
    | some s =>
      simp only [convertSheet] at h
      cases hp : parse_visible_column_numbers s
          (get_visible_column_indices header) with
      | ok ci =>
        rw [hp] at h
        obtain rfl := ConvResult.ok.inj h
        simp [convert_rows_to_json]
      | err e => rw [hp] at h; cases h
      | panicked => rw [hp] at h; cases h

/-- C8: the first row of the grid is always consumed as the header row and
never converted into a record — the output has one record per data row —
so a grid consisting of only a header row produces the empty output
array. -/
theorem header_row_consumed_not_converted :
    (∀ (grid : List (List Cell)) (columns : Option String)
        (out : List Record), convertSheet grid columns = ConvResult.ok out →
        out.length = grid.length - 1)
    ∧ (∀ (header : List Cell) (columns : Option String) (out : List Record),
        convertSheet [header] columns = ConvResult.ok out → out = [])
    ∧ (∀ header : List Cell, convertSheet [header] none = ConvResult.ok []) := by
  refine ⟨convertSheet_ok_length, ?_, ?_⟩
  · intro header columns out h
    have := convertSheet_ok_length [header] columns out h
    simpa using List.length_eq_zero.mp (by simpa using this)
  · intro header
    simp [convertSheet, convert_rows_to_json]

theorem header_row_consumed_not_converted_witness :
    ([[("a", JValue.str "1")]] : List Record).length =
      ([["A"], ["1"]] : List (List Cell)).length - 1 :=
  header_row_consumed_not_converted.1 [["A"], ["1"]] none
    [[("a", JValue.str "1")]] (by decide)

/-- C1: `normalize_column_name` computes exactly the spec's reference
algorithm (trim; exact single-symbol substitution bypassing everything
else; otherwise lowercase and the ordered replacement chain; finally
split on underscores, drop empty segments and rejoin), and the six §8
equations hold. -/
theorem normalize_matches_spec_algorithm :
    (∀ s : String, normalize_column_name s = specNormalize s)
    ∧ normalize_column_name "" = ""
    ∧ normalize_column_name "#" = "number"
    ∧ normalize_column_name " First Name " = "first_name"
    ∧ normalize_column_name "Sales/Revenue" = "sales_revenue"
    ∧ normalize_column_name "Profit & Loss" = "profit_and_loss"
    ∧ normalize_column_name "__a__b__" = "a_b" := by
  refine ⟨?_, by decide, by decide, by decide, by decide, by decide, by decide⟩
  intro s
  show String.mk (normalizeChars s.data) = specNormalize s
  by_cases h1 : trimChars s.data = ['#']
  · simp [normalizeChars, specNormalize, specSymbolTable, h1]
    decide
  · by_cases h2 : trimChars s.data = ['@']
    · simp [normalizeChars, specNormalize, specSymbolTable, h1, h2]
      decide
    · by_cases h3 : trimChars s.data = ['%']
      · simp [normalizeChars, specNormalize, specSymbolTable, h1, h2, h3]
        decide
      · by_cases h4 : trimChars s.data = ['$']
        · simp [normalizeChars, specNormalize, specSymbolTable, h1, h2, h3, h4]
          decide
        · by_cases h5 : trimChars s.data = ['/']
          · simp [normalizeChars, specNormalize, specSymbolTable,
              h1, h2, h3, h4, h5]
            decide
          · by_cases h6 : trimChars s.data = ['&']
            · simp [normalizeChars, specNormalize, specSymbolTable,
                h1, h2, h3, h4, h5, h6]
              decide
            · simp [normalizeChars, specNormalize, specSymbolTable,
                specReplacementList, replaceChain, collapseUnderscores,
                h1, h2, h3, h4, h5, h6]

/-! ## Helper lemmas: characters of replacement outputs -/

theorem mem_replaceFuel (p r : List Char) :
    ∀ (fuel : Nat) (l : List Char) (c : Char),
      c ∈ replaceFuel p r fuel l → c ∈ l ∨ c ∈ r := by
  intro fuel
  induction fuel with
  | zero => intro l c h; exact Or.inl h
  | succ n ih =>
    intro l c h
    cases l with
    | nil =>
      simp only [replaceFuel] at h
      cases h
    | cons a rest =>
      simp only [replaceFuel] at h
      split at h
      · rcases List.mem_append.mp h with hr | hrec
        · exact Or.inr hr
        · rcases ih _ _ hrec with hd | hr
          · exact Or.inl (List.mem_of_mem_drop hd)
          · exact Or.inr hr
      · rcases List.mem_cons.mp h with rfl | hrec
        · exact Or.inl (List.mem_cons_self _ _)
        · rcases ih _ _ hrec with hd | hr
          · exact Or.inl (List.mem_cons_of_mem _ hd)
          · exact Or.inr hr

theorem mem_listReplace (p r l : List Char) (c : Char)
    (h : c ∈ listReplace p r l) : c ∈ l ∨ c ∈ r :=
  mem_replaceFuel p r l.length l c h

theorem subset_of_isPrefixOf :
    ∀ (p l : List Char), p.isPrefixOf l = true → ∀ c ∈ p, c ∈ l := by
  intro p
  induction p with
  | nil => intro l _ c hc; cases hc
  | cons a as ih =>
    intro l h c hc
    cases l with
    | nil => cases h
    | cons b bs =>
      simp only [List.isPrefixOf, Bool.and_eq_true, beq_iff_eq] at h
      obtain ⟨rfl, h2⟩ := h
      rcases List.mem_cons.mp hc with rfl | h3
      · exact List.mem_cons_self _ _
      · exact List.mem_cons_of_mem _ (ih bs h2 c h3)

theorem replaceFuel_eq_self_of_missing (p r : List Char) (a : Char)
    (hap : a ∈ p) :
    ∀ (fuel : Nat) (l : List Char), a ∉ l → replaceFuel p r fuel l = l := by
  intro fuel
  induction fuel with
  | zero => intro l _; rfl
  | succ n ih =>
    intro l hna
    cases l with
    | nil => simp only [replaceFuel]
    | cons c rest =>
      have hpre : ¬p.isPrefixOf (c :: rest) = true := fun h =>
        hna (subset_of_isPrefixOf p (c :: rest) h a hap)
      rw [replaceFuel, if_neg hpre,
        ih rest fun h => hna (List.mem_cons_of_mem _ h)]

theorem listReplace_eq_self_of_missing (p r : List Char) (a : Char)
    (hap : a ∈ p) (l : List Char) (hna : a ∉ l) : listReplace p r l = l :=
  replaceFuel_eq_self_of_missing p r a hap l.length l hna

theorem not_mem_replaceFuel_single (a : Char) (r : List Char) (har : a ∉ r) :
    ∀ (fuel : Nat) (l : List Char), l.length ≤ fuel →
      a ∉ replaceFuel [a] r fuel l := by
  intro fuel
  induction fuel with
  | zero =>
    intro l hl
    rw [List.length_eq_zero.mp (Nat.le_zero.mp hl)]
    intro h
    cases h
  | succ n ih =>
    intro l hl
    cases l with
    | nil => simp [replaceFuel]
    | cons c rest =>
      have hlen : rest.length ≤ n := by
        simp only [List.length_cons] at hl
        omega
      by_cases hpre : ([a].isPrefixOf (c :: rest)) = true
      · simp only [replaceFuel, hpre, if_true]
        intro hmem
        rcases List.mem_append.mp hmem with h1 | h1
        · exact har h1
        · exact ih rest hlen (by simpa using h1)
      · simp only [replaceFuel, hpre, if_false]
        intro hmem
        rcases List.mem_cons.mp hmem with rfl | h1
        · exact hpre (by simp [List.isPrefixOf])
        · exact ih rest hlen h1

theorem not_mem_listReplace_single (a : Char) (r : List Char) (har : a ∉ r)
    (l : List Char) : a ∉ listReplace [a] r l :=
  not_mem_replaceFuel_single a r har l.length l (Nat.le_refl _)

theorem listReplace_all (P : Char → Prop) (p r l : List Char)
    (hl : ∀ c ∈ l, P c) (hr : ∀ c ∈ r, P c) :
    ∀ c ∈ listReplace p r l, P c := fun c hc =>
  (mem_listReplace p r l c hc).elim (hl c) (hr c)

theorem not_mem_listReplace_preserve (a : Char) (p r l : List Char)
    (hl : a ∉ l) (hr : a ∉ r) : a ∉ listReplace p r l :=
  fun h => (mem_listReplace p r l a h).elim hl hr

/-! ## Helper lemmas: trimming and lowercasing -/

theorem dropWhile_eq_self_of_false (pr : Char → Bool) (m : List Char)
    (hm : ∀ c ∈ m, pr c = false) : m.dropWhile pr = m := by
  cases m with
  | nil => rfl
  | cons a t =>
    rw [List.dropWhile_cons, hm a (List.mem_cons_self a t)]
    simp

theorem mem_of_mem_trimChars (l : List Char) (c : Char)
    (h : c ∈ trimChars l) : c ∈ l := by
  rw [trimChars, List.mem_reverse] at h
  have h2 := (List.dropWhile_sublist _).subset h
  rw [List.mem_reverse] at h2
  exact (List.dropWhile_sublist _).subset h2

theorem trimChars_eq_self (l : List Char)
    (h : ∀ c ∈ l, isRustWhitespace c = false) : trimChars l = l := by
  rw [trimChars,
    dropWhile_eq_self_of_false isRustWhitespace l h,
    dropWhile_eq_self_of_false isRustWhitespace l.reverse
      fun c hc => h c (List.mem_reverse.mp hc),
    List.reverse_reverse]

theorem toLower_eq_of_not_upper (c : Char)
    (h : ¬(c.toNat ≥ 65 ∧ c.toNat ≤ 90)) : Char.toLower c = c := by
  rw [Char.toLower]
  exact if_neg h

theorem toLower_toLower (c : Char) :
    Char.toLower (Char.toLower c) = Char.toLower c := by
  by_cases h : c.toNat ≥ 65 ∧ c.toNat ≤ 90
  · obtain ⟨n, hn65, hn90, rfl⟩ :
        ∃ n : Nat, 65 ≤ n ∧ n ≤ 90 ∧ c = Char.ofNat n :=
      ⟨c.toNat, h.1, h.2, (Char.ofNat_toNat c).symm⟩
    interval_cases n <;> decide
  · rw [toLower_eq_of_not_upper c h, toLower_eq_of_not_upper c h]

theorem isRustWhitespace_toLower (c : Char)
    (h : isRustWhitespace (Char.toLower c) = true) :
    isRustWhitespace c = true := by
  by_cases hu : c.toNat ≥ 65 ∧ c.toNat ≤ 90
  · obtain ⟨n, hn65, hn90, rfl⟩ :
        ∃ n : Nat, 65 ≤ n ∧ n ≤ 90 ∧ c = Char.ofNat n :=
      ⟨c.toNat, hu.1, hu.2, (Char.ofNat_toNat c).symm⟩
    exact absurd h (by interval_cases n <;> decide)
  · rwa [toLower_eq_of_not_upper c hu] at h

/-! ## Helper lemmas: splitting and joining on underscores -/

theorem splitOnP_chars (pr : Char → Bool) :
    ∀ (l : List Char) (seg : List Char), seg ∈ l.splitOnP pr →
      ∀ c ∈ seg, c ∈ l ∧ pr c = false := by
  intro l
  induction l with
  | nil =>
    intro seg hseg c hc
    rw [List.splitOnP_nil] at hseg
    obtain rfl := List.mem_singleton.mp hseg
    cases hc
  | cons a rest ih =>
    intro seg hseg c hc
    rw [List.splitOnP_cons] at hseg
    by_cases hpa : pr a = true
    · rw [if_pos hpa] at hseg
      rcases List.mem_cons.mp hseg with rfl | h2
      · cases hc
      · obtain ⟨h3, h4⟩ := ih seg h2 c hc
        exact ⟨List.mem_cons_of_mem _ h3, h4⟩
    · rw [if_neg hpa] at hseg
      cases hsp : rest.splitOnP pr with
      | nil => exact absurd hsp (List.splitOnP_ne_nil _ _)
      | cons s ss =>
        rw [hsp, List.modifyHead_cons] at hseg
        rcases List.mem_cons.mp hseg with rfl | h2
        · rcases List.mem_cons.mp hc with rfl | h3
          · exact ⟨List.mem_cons_self _ _, Bool.eq_false_iff.mpr hpa⟩
          · obtain ⟨h4, h5⟩ :=
              ih s (by rw [hsp]; exact List.mem_cons_self _ _) c h3
            exact ⟨List.mem_cons_of_mem _ h4, h5⟩
        · obtain ⟨h4, h5⟩ :=
            ih seg (by rw [hsp]; exact List.mem_cons_of_mem _ h2) c hc
          exact ⟨List.mem_cons_of_mem _ h4, h5⟩

theorem splitOn_underscore_chars (l : List Char) (seg : List Char)
    (hseg : seg ∈ l.splitOn '_') :
    '_' ∉ seg ∧ ∀ c ∈ seg, c ∈ l := by
  rw [List.splitOn] at hseg
  constructor
  · intro h
    have := (splitOnP_chars _ l seg hseg '_' h).2
    simp at this
  · intro c hc
    exact (splitOnP_chars _ l seg hseg c hc).1

theorem mem_intersperse (sep : List Char) :
    ∀ (xss : List (List Char)) (xs : List Char),
      xs ∈ xss.intersperse sep → xs = sep ∨ xs ∈ xss := by
  intro xss
  induction xss with
  | nil =>
    intro xs h
    rw [List.intersperse_nil] at h
    cases h
  | cons a rest ih =>
    intro xs h
    cases rest with
    | nil =>
      rw [List.intersperse_single] at h
      exact Or.inr h
    | cons b t =>
      rw [List.intersperse_cons₂] at h
      rcases List.mem_cons.mp h with rfl | h2
      · exact Or.inr (List.mem_cons_self _ _)
      · rcases List.mem_cons.mp h2 with rfl | h3
        · exact Or.inl rfl
        · rcases ih xs h3 with h4 | h4
          · exact Or.inl h4
          · exact Or.inr (List.mem_cons_of_mem _ h4)

theorem mem_intercalate_underscore (c : Char) (xss : List (List Char))
    (h : c ∈ List.intercalate ['_'] xss) :
    c = '_' ∨ ∃ xs ∈ xss, c ∈ xs := by
  rw [List.intercalate, List.mem_flatten] at h
  obtain ⟨l, hl, hcl⟩ := h
  rcases mem_intersperse ['_'] xss l hl with rfl | hmem
  · left
    simpa using hcl
  · right
    exact ⟨l, hmem, hcl⟩

theorem collapse_intercalate (segs : List (List Char))
    (hne : ∀ s ∈ segs, s ≠ []) (hfree : ∀ s ∈ segs, '_' ∉ s) :
    collapseUnderscores (List.intercalate ['_'] segs) =
      List.intercalate ['_'] segs := by
  cases segs with
  | nil => decide
  | cons s ss =>
    rw [collapseUnderscores,
      List.splitOn_intercalate (s :: ss) '_' hfree (List.cons_ne_nil s ss),
      List.filter_eq_self.mpr fun sg hsg => by
        simpa [List.isEmpty_iff] using hne sg hsg]

theorem replaceChain_output_clean (t : List Char)
    (hP : ∀ c ∈ t, isRustWhitespace c = true → c = ' ') :
    ∀ c ∈ replaceChain t,
      isRustWhitespace c = false ∧ Char.toLower c = c ∧
        c ∉ ([' ', '&', '/', '@', '#', '%', '$', '(', ')'] : List Char) := by
  set s0 := t.map Char.toLower with hs0
  set s1 := listReplace (" & ".data) ("_and_".data) s0 with hs1
  set s2 := listReplace (['&']) ("_and_".data) s1 with hs2
  set s3 := listReplace (['/']) (['_']) s2 with hs3
  set s4 := listReplace (['@']) ("_at_".data) s3 with hs4
  set s5 := listReplace (['#']) (['_']) s4 with hs5
  set s6 := listReplace (['%']) ("_percent".data) s5 with hs6
  set s7 := listReplace (['$']) ("_usd".data) s6 with hs7
  set s8 := listReplace (['(']) ([] : List Char) s7 with hs8
  set s9 := listReplace ([')']) ([] : List Char) s8 with hs9
  set s10 := listReplace ([' ']) (['_']) s9 with hs10
  have hrc : replaceChain t = s10 := rfl
  have q0 : ∀ c ∈ s0,
      (isRustWhitespace c = true → c = ' ') ∧ Char.toLower c = c := by
    intro c hc
    rw [hs0] at hc
    obtain ⟨c0, hc0, rfl⟩ := List.mem_map.mp hc
    refine ⟨fun hw => ?_, toLower_toLower c0⟩
    have hc0sp := hP c0 hc0 (isRustWhitespace_toLower c0 hw)
    subst hc0sp
    decide
  have q1 : ∀ c ∈ s1,
      (isRustWhitespace c = true → c = ' ') ∧ Char.toLower c = c :=
    listReplace_all _ (" & ".data) ("_and_".data) _ q0 (by decide)
  have q2 : ∀ c ∈ s2,
      (isRustWhitespace c = true → c = ' ') ∧ Char.toLower c = c :=
    listReplace_all _ (['&']) ("_and_".data) _ q1 (by decide)
  have q3 : ∀ c ∈ s3,
      (isRustWhitespace c = true → c = ' ') ∧ Char.toLower c = c :=
    listReplace_all _ (['/']) (['_']) _ q2 (by decide)
  have q4 : ∀ c ∈ s4,
      (isRustWhitespace c = true → c = ' ') ∧ Char.toLower c = c :=
    listReplace_all _ (['@']) ("_at_".data) _ q3 (by decide)
  have q5 : ∀ c ∈ s5,
      (isRustWhitespace c = true → c = ' ') ∧ Char.toLower c = c :=
    listReplace_all _ (['#']) (['_']) _ q4 (by decide)
  have q6 : ∀ c ∈ s6,
      (isRustWhitespace c = true → c = ' ') ∧ Char.toLower c = c :=
    listReplace_all _ (['%']) ("_percent".data) _ q5 (by decide)
  have q7 : ∀ c ∈ s7,
      (isRustWhitespace c = true → c = ' ') ∧ Char.toLower c = c :=
    listReplace_all _ (['$']) ("_usd".data) _ q6 (by decide)
  have q8 : ∀ c ∈ s8,
      (isRustWhitespace c = true → c = ' ') ∧ Char.toLower c = c :=
    listReplace_all _ (['(']) ([] : List Char) _ q7 (by decide)
  have q9 : ∀ c ∈ s9,
      (isRustWhitespace c = true → c = ' ') ∧ Char.toLower c = c :=
    listReplace_all _ ([')']) ([] : List Char) _ q8 (by decide)
  have q10 : ∀ c ∈ s10,
      (isRustWhitespace c = true → c = ' ') ∧ Char.toLower c = c :=
    listReplace_all _ ([' ']) (['_']) _ q9 (by decide)
  have hamp2 : '&' ∉ s2 :=
    not_mem_listReplace_single '&' ("_and_".data) (by decide) s1
  have hamp3 : '&' ∉ s3 :=
    not_mem_listReplace_preserve '&' (['/']) (['_']) s2 hamp2 (by decide)
  have hslash3 : '/' ∉ s3 :=
    not_mem_listReplace_single '/' (['_']) (by decide) s2
  have hamp4 : '&' ∉ s4 :=
    not_mem_listReplace_preserve '&' (['@']) ("_at_".data) s3 hamp3 (by decide)
  have hslash4 : '/' ∉ s4 :=
    not_mem_listReplace_preserve '/' (['@']) ("_at_".data) s3 hslash3 (by decide)
  have hat4 : '@' ∉ s4 :=
    not_mem_listReplace_single '@' ("_at_".data) (by decide) s3
  have hamp5 : '&' ∉ s5 :=
    not_mem_listReplace_preserve '&' (['#']) (['_']) s4 hamp4 (by decide)
  have hslash5 : '/' ∉ s5 :=
    not_mem_listReplace_preserve '/' (['#']) (['_']) s4 hslash4 (by decide)
  have hat5 : '@' ∉ s5 :=
    not_mem_listReplace_preserve '@' (['#']) (['_']) s4 hat4 (by decide)
  have hhash5 : '#' ∉ s5 :=
    not_mem_listReplace_single '#' (['_']) (by decide) s4
  have hamp6 : '&' ∉ s6 :=
    not_mem_listReplace_preserve '&' (['%']) ("_percent".data) s5 hamp5 (by decide)
  have hslash6 : '/' ∉ s6 :=
    not_mem_listReplace_preserve '/' (['%']) ("_percent".data) s5 hslash5 (by decide)
  have hat6 : '@' ∉ s6 :=
    not_mem_listReplace_preserve '@' (['%']) ("_percent".data) s5 hat5 (by decide)
  have hhash6 : '#' ∉ s6 :=
    not_mem_listReplace_preserve '#' (['%']) ("_percent".data) s5 hhash5 (by decide)
  have hpct6 : '%' ∉ s6 :=
    not_mem_listReplace_single '%' ("_percent".data) (by decide) s5
  have hamp7 : '&' ∉ s7 :=
    not_mem_listReplace_preserve '&' (['$']) ("_usd".data) s6 hamp6 (by decide)
  have hslash7 : '/' ∉ s7 :=
    not_mem_listReplace_preserve '/' (['$']) ("_usd".data) s6 hslash6 (by decide)
  have hat7 : '@' ∉ s7 :=
    not_mem_listReplace_preserve '@' (['$']) ("_usd".data) s6 hat6 (by decide)
  have hhash7 : '#' ∉ s7 :=
    not_mem_listReplace_preserve '#' (['$']) ("_usd".data) s6 hhash6 (by decide)
  have hpct7 : '%' ∉ s7 :=
    not_mem_listReplace_preserve '%' (['$']) ("_usd".data) s6 hpct6 (by decide)
  have husd7 : '$' ∉ s7 :=
    not_mem_listReplace_single '$' ("_usd".data) (by decide) s6
  have hamp8 : '&' ∉ s8 :=
    not_mem_listReplace_preserve '&' (['(']) ([] : List Char) s7 hamp7 (by decide)
  have hslash8 : '/' ∉ s8 :=
    not_mem_listReplace_preserve '/' (['(']) ([] : List Char) s7 hslash7 (by decide)
  have hat8 : '@' ∉ s8 :=
    not_mem_listReplace_preserve '@' (['(']) ([] : List Char) s7 hat7 (by decide)
  have hhash8 : '#' ∉ s8 :=
    not_mem_listReplace_preserve '#' (['(']) ([] : List Char) s7 hhash7 (by decide)
  have hpct8 : '%' ∉ s8 :=
    not_mem_listReplace_preserve '%' (['(']) ([] : List Char) s7 hpct7 (by decide)
  have husd8 : '$' ∉ s8 :=
    not_mem_listReplace_preserve '$' (['(']) ([] : List Char) s7 husd7 (by decide)
  have hlp8 : '(' ∉ s8 :=
    not_mem_listReplace_single '(' ([] : List Char) (by decide) s7
  have hamp9 : '&' ∉ s9 :=
    not_mem_listReplace_preserve '&' ([')']) ([] : List Char) s8 hamp8 (by decide)
  have hslash9 : '/' ∉ s9 :=
    not_mem_listReplace_preserve '/' ([')']) ([] : List Char) s8 hslash8 (by decide)
  have hat9 : '@' ∉ s9 :=
    not_mem_listReplace_preserve '@' ([')']) ([] : List Char) s8 hat8 (by decide)
  have hhash9 : '#' ∉ s9 :=
    not_mem_listReplace_preserve '#' ([')']) ([] : List Char) s8 hhash8 (by decide)
  have hpct9 : '%' ∉ s9 :=
    not_mem_listReplace_preserve '%' ([')']) ([] : List Char) s8 hpct8 (by decide)
  have husd9 : '$' ∉ s9 :=
    not_mem_listReplace_preserve '$' ([')']) ([] : List Char) s8 husd8 (by decide)
  have hlp9 : '(' ∉ s9 :=
    not_mem_listReplace_preserve '(' ([')']) ([] : List Char) s8 hlp8 (by decide)
  have hrp9 : ')' ∉ s9 :=
    not_mem_listReplace_single ')' ([] : List Char) (by decide) s8
  have hamp10 : '&' ∉ s10 :=
    not_mem_listReplace_preserve '&' ([' ']) (['_']) s9 hamp9 (by decide)
  have hslash10 : '/' ∉ s10 :=
    not_mem_listReplace_preserve '/' ([' ']) (['_']) s9 hslash9 (by decide)
  have hat10 : '@' ∉ s10 :=
    not_mem_listReplace_preserve '@' ([' ']) (['_']) s9 hat9 (by decide)
  have hhash10 : '#' ∉ s10 :=
    not_mem_listReplace_preserve '#' ([' ']) (['_']) s9 hhash9 (by decide)
  have hpct10 : '%' ∉ s10 :=
    not_mem_listReplace_preserve '%' ([' ']) (['_']) s9 hpct9 (by decide)
  have husd10 : '$' ∉ s10 :=
    not_mem_listReplace_preserve '$' ([' ']) (['_']) s9 husd9 (by decide)
  have hlp10 : '(' ∉ s10 :=
    not_mem_listReplace_preserve '(' ([' ']) (['_']) s9 hlp9 (by decide)
  have hrp10 : ')' ∉ s10 :=
    not_mem_listReplace_preserve ')' ([' ']) (['_']) s9 hrp9 (by decide)
  have hsp10 : ' ' ∉ s10 :=
    not_mem_listReplace_single ' ' (['_']) (by decide) s9
  intro c hc
  rw [hrc] at hc
  refine ⟨?_, (q10 c hc).2, ?_⟩
  · by_cases hw : isRustWhitespace c = true
    · have hcsp := (q10 c hc).1 hw
      rw [hcsp] at hc
      exact absurd hc hsp10
    · simpa using hw
  · intro hmem
    rcases (by simpa using hmem :
        c = ' ' ∨ c = '&' ∨ c = '/' ∨ c = '@' ∨ c = '#' ∨ c = '%' ∨
          c = '$' ∨ c = '(' ∨ c = ')') with
      rfl | rfl | rfl | rfl | rfl | rfl | rfl | rfl | rfl
    exacts [hsp10 hc, hamp10 hc, hslash10 hc, hat10 hc, hhash10 hc,
      hpct10 hc, husd10 hc, hlp10 hc, hrp10 hc]

theorem normalizeChars_idempotent (l : List Char)
    (hP : ∀ c ∈ l, isRustWhitespace c = true → c = ' ') :
    normalizeChars (normalizeChars l) = normalizeChars l := by
  by_cases h1 : trimChars l = ['#']
  · have he : normalizeChars l = "number".data := by
      simp only [normalizeChars, h1]
      decide
    rw [he]
    decide
  · by_cases h2 : trimChars l = ['@']
    · have he : normalizeChars l = "at".data := by
        simp only [normalizeChars, h1, h2]
        decide
      rw [he]
      decide
    · by_cases h3 : trimChars l = ['%']
      · have he : normalizeChars l = "percent".data := by
          simp only [normalizeChars, h1, h2, h3]
          decide
        rw [he]
        decide
      · by_cases h4 : trimChars l = ['$']
        · have he : normalizeChars l = "usd".data := by
            simp only [normalizeChars, h1, h2, h3, h4]
            decide
          rw [he]
          decide
        · by_cases h5 : trimChars l = ['/']
          · have he : normalizeChars l = "slash".data := by
              simp only [normalizeChars, h1, h2, h3, h4, h5]
              decide
            rw [he]
            decide
          · by_cases h6 : trimChars l = ['&']
            · have he : normalizeChars l = "and".data := by
                simp only [normalizeChars, h1, h2, h3, h4, h5, h6]
                decide
              rw [he]
              decide
            · have hy : normalizeChars l =
                  collapseUnderscores (replaceChain (trimChars l)) := by
                simp [normalizeChars, h1, h2, h3, h4, h5, h6]
              rw [hy]
              have hclean := replaceChain_output_clean (trimChars l)
                fun c hc hw => hP c (mem_of_mem_trimChars l c hc) hw
              set X := replaceChain (trimChars l) with hX
              set segs := (X.splitOn '_').filter (fun sg => !sg.isEmpty) with hsegs
              have hyx : collapseUnderscores X = List.intercalate ['_'] segs := rfl
              have hsegne : ∀ sg ∈ segs, sg ≠ [] := by
                intro sg hsg
                have := List.of_mem_filter hsg
                simpa [List.isEmpty_iff] using this
              have hsegfree : ∀ sg ∈ segs, '_' ∉ sg := fun sg hsg =>
                (splitOn_underscore_chars X sg (List.mem_of_mem_filter hsg)).1
              have hsegchars : ∀ sg ∈ segs, ∀ c ∈ sg, c ∈ X := fun sg hsg =>
                (splitOn_underscore_chars X sg (List.mem_of_mem_filter hsg)).2
              rw [hyx]
              set y := List.intercalate ['_'] segs with hy2
              have hychars : ∀ c ∈ y, c = '_' ∨ c ∈ X := by
                intro c hcy
                rw [hy2] at hcy
                rcases mem_intercalate_underscore c segs hcy with h | ⟨sg, hsg, hcs⟩
                · exact Or.inl h
                · exact Or.inr (hsegchars sg hsg c hcs)
              have hyws : ∀ c ∈ y, isRustWhitespace c = false := by
                intro c hcy
                rcases hychars c hcy with rfl | hcx
                · decide
                · exact (hclean c hcx).1
              have hylower : ∀ c ∈ y, Char.toLower c = c := by
                intro c hcy
                rcases hychars c hcy with rfl | hcx
                · decide
                · exact (hclean c hcx).2.1
              have hynotmem : ∀ d ∈ ([' ', '&', '/', '@', '#', '%', '$', '(', ')'] :
                  List Char), d ∉ y := by
                intro d hd hdy
                rcases hychars d hdy with rfl | hcx
                · exact absurd hd (by decide)
                · exact (hclean d hcx).2.2 hd
              simp only [normalizeChars]
              have hty : trimChars y = y := trimChars_eq_self y hyws
              rw [hty]
              have hne1 : ¬y = ['#'] := fun h =>
                hynotmem '#' (by decide) (by rw [h]; decide)
              have hne2 : ¬y = ['@'] := fun h =>
                hynotmem '@' (by decide) (by rw [h]; decide)
              have hne3 : ¬y = ['%'] := fun h =>
                hynotmem '%' (by decide) (by rw [h]; decide)
              have hne4 : ¬y = ['$'] := fun h =>
                hynotmem '$' (by decide) (by rw [h]; decide)
              have hne5 : ¬y = ['/'] := fun h =>
                hynotmem '/' (by decide) (by rw [h]; decide)
              have hne6 : ¬y = ['&'] := fun h =>
                hynotmem '&' (by decide) (by rw [h]; decide)
              rw [if_neg hne1, if_neg hne2, if_neg hne3, if_neg hne4, if_neg hne5,
                if_neg hne6]
              have hmap : y.map Char.toLower = y := by
                have h' : ∀ c ∈ y, Char.toLower c = id c := hylower
                rw [List.map_congr_left h', List.map_id]
              have hrcy : replaceChain y = y := by
                simp only [replaceChain]
                rw [hmap,
                  listReplace_eq_self_of_missing (" & ".data) ("_and_".data) ' '
                    (by decide) y (hynotmem ' ' (by decide)),
                  listReplace_eq_self_of_missing (['&']) ("_and_".data) '&'
                    (by decide) y (hynotmem '&' (by decide)),
                  listReplace_eq_self_of_missing (['/']) (['_']) '/'
                    (by decide) y (hynotmem '/' (by decide)),
                  listReplace_eq_self_of_missing (['@']) ("_at_".data) '@'
                    (by decide) y (hynotmem '@' (by decide)),
                  listReplace_eq_self_of_missing (['#']) (['_']) '#'
                    (by decide) y (hynotmem '#' (by decide)),
                  listReplace_eq_self_of_missing (['%']) ("_percent".data) '%'
                    (by decide) y (hynotmem '%' (by decide)),
                  listReplace_eq_self_of_missing (['$']) ("_usd".data) '$'
                    (by decide) y (hynotmem '$' (by decide)),
                  listReplace_eq_self_of_missing (['(']) ([] : List Char) '('
                    (by decide) y (hynotmem '(' (by decide)),
                  listReplace_eq_self_of_missing ([')']) ([] : List Char) ')'
                    (by decide) y (hynotmem ')' (by decide)),
                  listReplace_eq_self_of_missing ([' ']) (['_']) ' '
                    (by decide) y (hynotmem ' ' (by decide))]
              rw [hrcy, hy2]
              exact collapse_intercalate segs hsegne hsegfree

/-- C6 counterexample: header normalization is not idempotent on the code:
for the input `"#\ta"` one pass yields `"\ta"` (the `#` becomes an
underscore that is then discarded, exposing the tab), while a second pass
trims the tab away, yielding `"a"`. -/
theorem normalize_not_idempotent :
    normalize_column_name (normalize_column_name "#\ta") ≠
      normalize_column_name "#\ta" := by decide

/-- C6 (amended): header normalization is idempotent on every string whose
whitespace characters are all plain spaces (no tab, newline, or other
Unicode whitespace); in particular an already-normalized header such as
`"first_name"` is returned unchanged. -/
theorem normalize_idempotent_amended :
    (∀ s : String, (∀ c ∈ s.data, isRustWhitespace c = true → c = ' ') →
        normalize_column_name (normalize_column_name s) =
          normalize_column_name s)
    ∧ normalize_column_name "first_name" = "first_name" := by
  refine ⟨?_, by decide⟩
  intro s h
  exact congrArg String.mk (normalizeChars_idempotent s.data h)

theorem normalize_idempotent_amended_witness :
    normalize_column_name (normalize_column_name "Profit & Loss") =
      normalize_column_name "Profit & Loss" :=
  normalize_idempotent_amended.1 "Profit & Loss" (by decide)


end Excel2Json
